import Mathlib

/-!
Verification of the recognition cascade and audio-processing pipeline of the
Voice push-to-talk dictation utility.

The definitions below are a shallow embedding of the Python source:
  * `src/main.py`, `App._process_audio`  — backend cascade and pipeline tail,
  * `src/recognition/groq_api.py`        — Groq cloud backend `transcribe`,
  * `src/recognition/openai_api.py`      — OpenAI cloud backend `transcribe`,
  * `src/recognition/gigaam_local.py`    — local GigaAM backend `transcribe`,
  * `src/recognition/postprocessor.py`   — `TextPostprocessor.process` and
    `TextPostprocessor._simple_cleanup`.

Network and model calls are abstracted as outcome oracles passed in as
arguments; everything else follows the Python control flow.
-/

namespace Voice

/-! ## Backend ordering (`App._process_audio`, main.py lines 389–393)

Python:
  primary = (self.settings.recognition.backend or "groq").lower()
  all_backends = ["groq", "openai"]
  cascade = [b for b in [primary] + all_backends if b in all_backends]
  seen = set()
  ordered_backends = [b for b in cascade if not (b in seen or seen.add(b))]
-/

/-- The fixed canonical backend order `all_backends` from main.py. -/
def allBackends : List String := ["groq", "openai"]

/-- ASCII lowercasing of a string, modelling Python `str.lower()` on the
ASCII backend identifiers used here. -/
def lowerAscii (s : String) : String :=
  ⟨s.data.map Char.toLower⟩

/-- `(backend or "groq").lower()`: empty setting falls back to "groq",
otherwise the setting is lowercased. -/
def normBackend (s : String) : String :=
  if s = "" then "groq" else lowerAscii s

/-- Order-preserving deduplication, mirroring the `seen`-set comprehension. -/
def dedupKeepFirst : List String → List String → List String
  | [], _ => []
  | b :: bs, seen =>
    if b ∈ seen then dedupKeepFirst bs seen
    else b :: dedupKeepFirst bs (b :: seen)

/-- `ordered_backends` as built in `App._process_audio` from the configured
backend string. -/
def orderedBackends (backendSetting : String) : List String :=
  let primary := normBackend backendSetting
  let cascade := (primary :: allBackends).filter (fun b => allBackends.contains b)
  dedupKeepFirst cascade []

/-! ## The cascade loop (`App._process_audio`, main.py lines 395–433)

The `transcribe` calls are abstracted as an oracle
`oracle : Nat → String → Except String String` giving, for each round index
(0-based `attempt`) and backend name, either the recognised text or the
stringified exception message.  The trace of attempted `(round, backend)`
pairs is returned together with the result. -/

/-- Result of the cascade: first success (text and backend), or exhaustion
with the last recorded error message (`last_error`). -/
inductive CascadeResult where
  | success (text : String) (backend : String)
  | exhausted (lastError : Option String)
  deriving DecidableEq, Repr

/-- `MAX_ATTEMPTS = 5` from main.py. -/
def MAX_ATTEMPTS : Nat := 5

/-- The inner `for backend in ordered_backends` loop of one round: attempts
backends in order, stopping at the first success, threading `last_error`.
Returns (attempt trace, success if any, last_error). -/
def tryBackends (oracle : Nat → String → Except String String) (round : Nat) :
    List String → Option String →
    List (Nat × String) × Option (String × String) × Option String
  | [], le => ([], none, le)
  | b :: bs, le =>
    match oracle round b with
    | .ok t => ([(round, b)], some (t, b), le)
    | .error e =>
      let r := tryBackends oracle round bs (some e)
      ((round, b) :: r.1, r.2.1, r.2.2)

/-- The outer `for attempt in range(MAX_ATTEMPTS)` loop, starting at round
`round` with `rem` rounds remaining and current `last_error`. -/
def runFrom (oracle : Nat → String → Except String String)
    (backends : List String) :
    Nat → Nat → Option String → List (Nat × String) × CascadeResult
  | _, 0, le => ([], .exhausted le)
  | round, rem + 1, le =>
    let r := tryBackends oracle round backends le
    match r.2.1 with
    | some (t, b) => (r.1, .success t b)
    | none =>
      let rest := runFrom oracle backends (round + 1) rem r.2.2
      (r.1 ++ rest.1, rest.2)

/-- The full cascade of `App._process_audio`: the backend list is built from
the configured backend and the loop runs for `MAX_ATTEMPTS` rounds. -/
def runCascade (oracle : Nat → String → Except String String)
    (backendSetting : String) : List (Nat × String) × CascadeResult :=
  runFrom oracle (orderedBackends backendSetting) 0 MAX_ATTEMPTS none

/-- The fixed user-visible message emitted when the cascade exhausts
(main.py line 427); it does not interpolate `last_error`. -/
def cascadeFailureMessage : String :=
  "Ошибка соединения. Настройте соединение и попробуйте еще раз."

/-- The generic message for an unexpected post-processing error
(main.py line 528). -/
def postprocessErrorMessage : String :=
  "Неизвестная ошибка постобработки. См. логи."

/-- Observable outcome of the pipeline tail after the cascade
(main.py lines 426–530): emitted state, user message (text, timeout ms),
whether the retry button is shown, and whether the recovery file is
deleted. -/
structure PipelineOutcome where
  emittedState : String
  message : Option (String × Nat)
  retryShown : Bool
  recoveryDeleted : Bool
  deriving DecidableEq, Repr

/-- The pipeline tail of `App._process_audio` after the cascade finishes.
`recoveryPresent` models `recovery_path is not None`; `postOk` models the
main `try` block (steps 2–8: postprocess, UI update, clipboard copy/paste,
history, transcript log) completing without an escaping exception.  On
exhaustion the code emits state "error", the fixed persistent message
(timeout 0), shows the retry button and returns without touching the
recovery file; on success it emits "ready" and then deletes the recovery
file (main.py lines 519–523); an escaping exception skips the deletion and
emits the generic error message (lines 525–528). -/
def pipelineTail (res : CascadeResult) (recoveryPresent : Bool)
    (postOk : Bool) : PipelineOutcome :=
  match res with
  | .exhausted _ =>
    { emittedState := "error"
      message := some (cascadeFailureMessage, 0)
      retryShown := true
      recoveryDeleted := false }
  | .success _ _ =>
    if postOk then
      { emittedState := "ready"
        message := none
        retryShown := false
        recoveryDeleted := recoveryPresent }
    else
      { emittedState := "error"
        message := some (postprocessErrorMessage, 3000)
        retryShown := false
        recoveryDeleted := false }

/-! ### Helper lemmas about the cascade loop -/

/-- The `last_error` update of one backend attempt: unchanged on success,
set to the message on failure. -/
def lastErrStep (oracle : Nat → String → Except String String) (round : Nat)
    (acc : Option String) (b : String) : Option String :=
  match oracle round b with
  | .ok _ => acc
  | .error e => some e

/-- If every backend of the round fails, the round's trace lists every
backend in order, no success is reported, and `last_error` is threaded
through all failures. -/
theorem tryBackends_allFail (oracle : Nat → String → Except String String)
    (round : Nat) :
    ∀ (bs : List String) (le : Option String),
      (∀ b ∈ bs, ∀ t, oracle round b ≠ .ok t) →
      tryBackends oracle round bs le =
        (bs.map (fun b => (round, b)), none,
          bs.foldl (lastErrStep oracle round) le) := by
  intro bs
  induction bs with
  | nil => intro le _; rfl
  | cons b bs ih =>
    intro le h
    have hb := h b (by simp)
    cases hoc : oracle round b with
    | ok t => exact absurd hoc (hb t)
    | error e =>
      simp only [tryBackends, hoc, List.map_cons, List.foldl_cons]
      rw [ih (some e) (fun b' hb' => h b' (by simp [hb']))]
      simp [lastErrStep, hoc]

/-- If every backend fails in every remaining round, the loop attempts every
backend of every round in order and exhausts, folding `last_error` through
all attempts. -/
theorem runFrom_allFail (oracle : Nat → String → Except String String)
    (bs : List String) (h : ∀ r b, b ∈ bs → ∀ t, oracle r b ≠ .ok t) :
    ∀ (rem round : Nat) (le : Option String),
      runFrom oracle bs round rem le =
        (((List.range' round rem).map (fun q => bs.map (fun b => (q, b)))).flatten,
          .exhausted ((List.range' round rem).foldl
            (fun acc q => bs.foldl (lastErrStep oracle q) acc) le)) := by
  intro rem
  induction rem with
  | zero => intro round le; rfl
  | succ n ih =>
    intro round le
    rw [List.range'_succ]
    simp only [runFrom, List.map_cons, List.flatten_cons, List.foldl_cons]
    rw [tryBackends_allFail oracle round bs le (fun b hb t => h round b hb t)]
    simp only [ih (round + 1)]

/-- A list of strings folded with a constantly-failing `lastErrStep` ends at
the message of its last element. -/
theorem foldl_lastErrStep_ne_nil (oracle : Nat → String → Except String String)
    (emsg : Nat → String → String) (q : Nat)
    (hfail : ∀ r b, oracle r b = .error (emsg r b)) :
    ∀ (bs : List String) (acc : Option String), bs ≠ [] →
      bs.foldl (lastErrStep oracle q) acc = bs.getLast?.map (emsg q) := by
  intro bs
  induction bs with
  | nil => intro acc hbs; exact absurd rfl hbs
  | cons b bs ih =>
    intro acc _
    cases bs with
    | nil => simp [lastErrStep, hfail]
    | cons b' bs' =>
      simp only [List.foldl_cons, List.getLast?_cons_cons]
      exact ih _ (by simp)

end Voice

/-! ## C1: cascade ordering -/

/-- C1: for every valid configured primary backend `P` in the fixed
canonical order `O = ["groq", "openai"]`, the backend sequence attempted
within one round is `[P] + (O minus P)`: the primary first, then the
remaining known backends in canonical order, deduplicated. -/
theorem cascade_ordering (p : String) (hp : p ∈ Voice.allBackends) :
    Voice.orderedBackends p = p :: Voice.allBackends.filter (fun b => b ≠ p) := by
  simp only [Voice.allBackends, List.mem_cons, List.mem_singleton,
    List.not_mem_nil, or_false] at hp
  rcases hp with h | h <;> subst h <;> decide

/-- Witness for C1 at the concrete primary backend "openai". -/
theorem cascade_ordering_witness :
    "openai" ∈ Voice.allBackends ∧
      Voice.orderedBackends "openai" =
        "openai" :: Voice.allBackends.filter (fun b => b ≠ "openai") :=
  ⟨by decide, cascade_ordering "openai" (by decide)⟩

/-! ## C2: cascade termination on total failure -/

/-- C2: if every backend fails on every call, the cascade performs exactly
`MAX_ATTEMPTS` (5) rounds times `len(O)` attempts and returns a terminal
failure. -/
theorem cascade_termination (oracle : Nat → String → Except String String)
    (p : String) (hp : p ∈ Voice.allBackends)
    (hfail : ∀ r b t, oracle r b ≠ .ok t) :
    (Voice.runCascade oracle p).1.length =
        Voice.MAX_ATTEMPTS * Voice.allBackends.length ∧
      ∃ le, (Voice.runCascade oracle p).2 = .exhausted le := by
  have hlen : (Voice.orderedBackends p).length = Voice.allBackends.length := by
    rw [cascade_ordering p hp]
    simp only [Voice.allBackends, List.mem_cons, List.mem_singleton,
      List.not_mem_nil, or_false] at hp
    rcases hp with h | h <;> subst h <;> decide
  unfold Voice.runCascade
  rw [Voice.runFrom_allFail oracle (Voice.orderedBackends p)
    (fun r b _ t => hfail r b t) Voice.MAX_ATTEMPTS 0 none]
  refine ⟨?_, _, rfl⟩
  simp only [List.length_flatten, List.map_map]
  have hconst : (List.length ∘ fun q => List.map (fun b => (q, b)) (Voice.orderedBackends p))
      = fun _ : Nat => Voice.allBackends.length := by
    funext q; simp [hlen]
  rw [hconst, List.map_const', List.sum_replicate, List.length_range', smul_eq_mul]

/-- Witness for C2: a concrete always-failing oracle with primary "groq"
yields exactly 5 × 2 = 10 attempts and exhaustion. -/
theorem cascade_termination_witness :
    (Voice.runCascade (fun _ _ => .error "x") "groq").1.length =
        Voice.MAX_ATTEMPTS * Voice.allBackends.length ∧
      ∃ le, (Voice.runCascade (fun _ _ => .error "x") "groq").2 = .exhausted le :=
  cascade_termination (fun _ _ => .error "x") "groq" (by decide)
    (fun _ _ _ h => Except.noConfusion h)

namespace Voice

/-- If the first `k` backends of the round fail and the `k`-th succeeds with
`t`, the round's trace is exactly the first `k+1` backends and the success
carries `t` and the `k`-th backend. -/
theorem tryBackends_prefix_success (oracle : Nat → String → Except String String)
    (round : Nat) :
    ∀ (bs : List String) (k : Nat) (hk : k < bs.length) (le : Option String)
      (t : String),
      (∀ j (hj : j < k), ∀ t',
        oracle round (bs.get ⟨j, Nat.lt_trans hj hk⟩) ≠ .ok t') →
      oracle round (bs.get ⟨k, hk⟩) = .ok t →
      (tryBackends oracle round bs le).1 =
          (bs.take (k + 1)).map (fun b => (round, b)) ∧
        (tryBackends oracle round bs le).2.1 = some (t, bs.get ⟨k, hk⟩) := by
  intro bs
  induction bs with
  | nil => intro k hk; exact absurd hk (by simp)
  | cons b bs ih =>
    intro k hk le t hfail hok
    cases k with
    | zero =>
      have hok' : oracle round b = .ok t := hok
      simp [tryBackends, hok']
    | succ j =>
      have hb : ∀ t', oracle round b ≠ .ok t' := fun t' =>
        hfail 0 (Nat.succ_pos j) t'
      cases hoc : oracle round b with
      | ok t' => exact absurd hoc (hb t')
      | error e =>
        have hk' : j < bs.length := Nat.lt_of_succ_lt_succ hk
        have := ih j hk' (some e) t
          (fun i hi t' => hfail (i + 1) (Nat.succ_lt_succ hi) t') hok
        simp only [tryBackends, hoc, List.take_succ_cons, List.map_cons]
        refine ⟨by rw [this.1], ?_⟩
        rw [this.2]
        rfl


/-- If all rounds before `r` fail completely, and in round `r` the backends
before position `k` fail while position `k` succeeds with `t`, the loop
started at round `i` attempts exactly all backends of rounds `i..r-1` and
the first `k+1` backends of round `r`, returning that success. -/
theorem runFrom_success (oracle : Nat → String → Except String String)
    (bs : List String) (r k : Nat) (t : String) (hk : k < bs.length)
    (hok : oracle r (bs.get ⟨k, hk⟩) = .ok t)
    (hrow : ∀ j (hj : j < k), ∀ t',
      oracle r (bs.get ⟨j, Nat.lt_trans hj hk⟩) ≠ .ok t') :
    ∀ (rem i : Nat), i ≤ r → r < i + rem →
      (∀ r' b, i ≤ r' → r' < r → b ∈ bs → ∀ t', oracle r' b ≠ .ok t') →
      ∀ le, runFrom oracle bs i rem le =
        (((List.range' i (r - i)).map (fun q => bs.map (fun b => (q, b)))).flatten
            ++ (bs.take (k + 1)).map (fun b => (r, b)),
          .success t (bs.get ⟨k, hk⟩)) := by
  intro rem
  induction rem with
  | zero => intro i h1 h2; omega
  | succ n ih =>
    intro i hir hlt hbefore le
    by_cases hieq : i = r
    · subst hieq
      obtain ⟨h1, h2⟩ := tryBackends_prefix_success oracle i bs k hk le t hrow hok
      simp only [runFrom, h2, h1, Nat.sub_self, List.range'_zero, List.map_nil,
        List.flatten_nil, List.nil_append]
    · have hi : i < r := Nat.lt_of_le_of_ne hir hieq
      have hfaili : ∀ b ∈ bs, ∀ t', oracle i b ≠ .ok t' := fun b hb t' =>
        hbefore i b le_rfl hi hb t'
      simp only [runFrom, tryBackends_allFail oracle i bs le hfaili]
      rw [ih (i + 1) hi (by omega)
        (fun r' b h1 h2 hb t' => hbefore r' b (by omega) h2 hb t') _]
      have hsub : r - i = (r - (i + 1)) + 1 := by omega
      rw [hsub, List.range'_succ, List.map_cons, List.flatten_cons,
        List.append_assoc]

end Voice

/-! ## C3: cascade short-circuit on first success -/

/-- C3: if the backend at round `r`, position `k` succeeds (all earlier
attempts failing), the cascade returns that text and backend, and the
attempt trace consists exactly of all backends of rounds `0..r-1` followed
by backends `0..k` of round `r` — nothing later is invoked. -/
theorem cascade_short_circuit (oracle : Nat → String → Except String String)
    (p : String) (r k : Nat) (t : String)
    (hk : k < (Voice.orderedBackends p).length) (hr : r < Voice.MAX_ATTEMPTS)
    (hbefore : ∀ r' b, r' < r → b ∈ Voice.orderedBackends p → ∀ t',
      oracle r' b ≠ .ok t')
    (hrow : ∀ j (hj : j < k), ∀ t',
      oracle r ((Voice.orderedBackends p).get ⟨j, Nat.lt_trans hj hk⟩) ≠ .ok t')
    (hok : oracle r ((Voice.orderedBackends p).get ⟨k, hk⟩) = .ok t) :
    Voice.runCascade oracle p =
      (((List.range r).map
            (fun q => (Voice.orderedBackends p).map (fun b => (q, b)))).flatten
          ++ ((Voice.orderedBackends p).take (k + 1)).map (fun b => (r, b)),
        .success t ((Voice.orderedBackends p).get ⟨k, hk⟩)) := by
  unfold Voice.runCascade
  rw [Voice.runFrom_success oracle _ r k t hk hok hrow Voice.MAX_ATTEMPTS 0
    (Nat.zero_le r) (by omega)
    (fun r' b _ h2 hb t' => hbefore r' b h2 hb t') none]
  rw [List.range_eq_range']
  simp

/-- The oracle of the C3 scenario: in the first round the primary backend
"groq" (the spec's cloud_a) fails with a network error, "openai" (cloud_b)
succeeds with "ok". -/
def scenarioOracle : Nat → String → Except String String :=
  fun r b =>
    if r = 0 ∧ b = "openai" then .ok "ok"
    else .error "NetworkError: connection failed"

/-- Witness for C3, the spec's scenario: primary groq fails once with a
network error, openai returns "ok"; the cascade returns ("ok", "openai")
after exactly one failed attempt. -/
theorem cascade_short_circuit_witness :
    Voice.runCascade scenarioOracle "groq" =
      ([(0, "groq"), (0, "openai")], .success "ok" "openai") := by
  have h := cascade_short_circuit scenarioOracle "groq" 0 1 "ok"
    (by decide) (by decide)
    (fun r' b hr' _ t' => absurd hr' (Nat.not_lt_zero r'))
    (fun j hj t' h => by
      have hj0 : j = 0 := Nat.lt_one_iff.mp hj
      subst hj0
      have h' : (Except.error "NetworkError: connection failed" :
        Except String String) = Except.ok t' := h
      exact Except.noConfusion h')
    rfl
  exact h.trans (by decide)

/-! ## C4: what the terminal failure carries -/

/-- Counterexample to C4: with every call failing with message "boom", the
cascade exhausts recording "boom" as `last_error`, yet the user-visible
failure message is the fixed connection-error string, which does not
contain "boom" as a substring. -/
theorem cascade_exhaustion_counterexample :
    (Voice.runCascade (fun _ _ => .error "boom") "groq").2 =
        .exhausted (some "boom") ∧
      (Voice.pipelineTail
          (Voice.runCascade (fun _ _ => .error "boom") "groq").2 true true).message =
        some (Voice.cascadeFailureMessage, 0) ∧
      ¬ "boom".data <:+: Voice.cascadeFailureMessage.data := by
  refine ⟨by decide, by decide, by decide⟩

/-- C4 as amended: when all rounds exhaust, the cascade result records
internally the error message of the very last attempt (round
`MAX_ATTEMPTS - 1`, last backend of the order), but the surfaced outcome is
the fixed connection-error message, shown persistently (timeout 0) with the
retry control, independent of the recorded error; the recovery file is not
deleted. -/
theorem cascade_exhaustion_surfacing (oracle : Nat → String → Except String String)
    (emsg : Nat → String → String) (p : String) (rp pok : Bool)
    (hp : p ∈ Voice.allBackends)
    (hfail : ∀ r b, oracle r b = .error (emsg r b)) :
    (Voice.runCascade oracle p).2 =
        .exhausted ((Voice.orderedBackends p).getLast?.map
          (emsg (Voice.MAX_ATTEMPTS - 1))) ∧
      Voice.pipelineTail (Voice.runCascade oracle p).2 rp pok =
        ⟨"error", some (Voice.cascadeFailureMessage, 0), true, false⟩ := by
  have hne : Voice.orderedBackends p ≠ [] := by
    rw [cascade_ordering p hp]; simp
  have hx : (Voice.runCascade oracle p).2 =
      .exhausted ((Voice.orderedBackends p).getLast?.map
        (emsg (Voice.MAX_ATTEMPTS - 1))) := by
    unfold Voice.runCascade
    rw [Voice.runFrom_allFail oracle (Voice.orderedBackends p)
      (fun r b _ t h => Except.noConfusion ((hfail r b).symm.trans h))
      Voice.MAX_ATTEMPTS 0 none]
    have h5 : List.range' 0 Voice.MAX_ATTEMPTS = [0, 1, 2, 3, 4] := by decide
    rw [h5]
    simp only [List.foldl_cons, List.foldl_nil]
    rw [Voice.foldl_lastErrStep_ne_nil oracle emsg 4 hfail
      (Voice.orderedBackends p) _ hne]
    rfl
  exact ⟨hx, by rw [hx]; rfl⟩

/-- Witness for the amended C4: a concrete failing oracle whose message
encodes round and backend; the recorded last error is that of round 4 on
"openai", while the surfaced message is the fixed string. -/
theorem cascade_exhaustion_surfacing_witness :
    (Voice.runCascade (fun r b => .error (toString r ++ "-" ++ b)) "groq").2 =
        .exhausted (some "4-openai") ∧
      Voice.pipelineTail
          (Voice.runCascade (fun r b => .error (toString r ++ "-" ++ b)) "groq").2
          true true =
        ⟨"error", some (Voice.cascadeFailureMessage, 0), true, false⟩ := by
  have h := cascade_exhaustion_surfacing (fun r b => .error (toString r ++ "-" ++ b))
    (fun r b => toString r ++ "-" ++ b) "groq" true true (by decide)
    (fun _ _ => rfl)
  exact ⟨h.1.trans (by decide), h.2⟩

/-! ## C10: recovery cleanup only on success -/

/-- C10: with a recovery file present, the file is deleted if and only if
the pipeline run completes successfully — the cascade succeeded and the
post-cascade steps ran without an escaping exception.  In particular a
`CascadeExhausted` terminal failure never deletes it, and a successful run
does. -/
theorem recovery_cleanup_iff_success (res : Voice.CascadeResult) (postOk : Bool) :
    (Voice.pipelineTail res true postOk).recoveryDeleted = true ↔
      (∃ t b, res = .success t b) ∧ postOk = true := by
  cases res <;> cases postOk <;> simp [Voice.pipelineTail]

namespace Voice

/-! ## Cloud backend `transcribe` (groq_api.py, openai_api.py)

The HTTP layer is abstracted: one request attempt either raises a timeout,
raises a transport/network error, or yields a response with a status code
and a parse outcome for its JSON body.  `payload.get("text", "")` is
modelled by the three `BodyParse` text cases. -/

/-- Parse outcome of the HTTP response body: `resp.json()` raising
`ValueError` (malformed), a JSON object without a "text" key, a "text" key
holding a string, or a "text" key holding a non-string value. -/
inductive BodyParse where
  | malformed
  | textAbsent
  | textStr (s : String)
  | textNonString
  deriving DecidableEq, Repr

/-- Outcome of one `requests.post` call: `requests.Timeout`,
another `requests.RequestException`, or an HTTP response. -/
inductive HttpAttempt where
  | timeout
  | netError
  | response (status : Nat) (body : BodyParse)
  deriving DecidableEq, Repr

/-- `requests.Response.ok`: status code below 400. -/
def respOk (status : Nat) : Bool := status < 400

/-- Shared response handling of both cloud recognizers (groq_api.py lines
88–113, openai_api.py lines 72–99): 401, 429 and other non-2xx statuses and
a malformed body raise `RuntimeError`s; `payload.get("text", "")` returns
the empty string when the field is absent, and only a present non-string
"text" raises.  Messages follow the source with the quotes around the
field name elided. -/
def handleResponse (who : String) (status : Nat) (body : BodyParse) :
    Except String String :=
  if status = 401 then
    .error (who ++ ": неверный или отсутствующий API‑ключ (401).")
  else if status = 429 then
    .error (who ++ ": превышен лимит запросов (429). Попробуйте позже.")
  else if ¬ respOk status then
    .error (who ++ ": ошибка сервера (" ++ toString status ++ ").")
  else
    match body with
    | .malformed => .error (who ++ ": не удалось разобрать ответ сервера.")
    | .textAbsent => .ok ""
    | .textStr s => .ok s
    | .textNonString => .error (who ++ ": в ответе нет поля text.")

/-- `GroqWhisperRecognizer.transcribe` (groq_api.py lines 32–113): performs
a first request; if it raises a timeout or network error, sleeps 1 second
and performs exactly one more; if both raise, the final error message is
keyed on the second failure's kind.  Returns the number of HTTP requests
issued together with the result. -/
def groqTranscribe (attempt1 attempt2 : HttpAttempt) :
    Nat × Except String String :=
  match attempt1 with
  | .response st body => (1, handleResponse "Groq" st body)
  | _ =>
    match attempt2 with
    | .response st body => (2, handleResponse "Groq" st body)
    | .timeout => (2, .error "Groq: превышено время ожидания ответа.")
    | .netError => (2, .error "Groq: сетевая ошибка при обращении к API.")

/-- `OpenAIWhisperRecognizer.transcribe` (openai_api.py lines 40–99): a
single request; a raised timeout or network error is converted directly to
a `RuntimeError`.  Returns the number of HTTP requests issued together with
the result. -/
def openaiTranscribe (attempt1 : HttpAttempt) : Nat × Except String String :=
  (1,
    match attempt1 with
    | .response st body => handleResponse "OpenAI" st body
    | .timeout => .error "OpenAI: превышено время ожидания ответа."
    | .netError => .error "OpenAI: сетевая ошибка при обращении к API.")

end Voice

/-! ## C5: single attempt per `transcribe` call -/

/-- Counterexample to C5: the Groq backend's `transcribe` retries
internally — when the first request times out it issues a second request,
so a single `transcribe` invocation makes 2 requests, not at most 1. -/
theorem transcribe_single_attempt_counterexample :
    ¬ (Voice.groqTranscribe .timeout
        (.response 200 (.textStr "ok"))).1 ≤ 1 := by
  decide

/-- C5 as amended: OpenAI's `transcribe` issues exactly one HTTP request;
Groq's `transcribe` issues at most two, the second occurring exactly when
the first raises a timeout or network error (one internal retry after a 1s
pause); neither backend retries beyond that, and further retrying is the
cascade's responsibility. -/
theorem transcribe_attempt_counts (a1 a2 : Voice.HttpAttempt) :
    (Voice.openaiTranscribe a1).1 = 1 ∧
      (Voice.groqTranscribe a1 a2).1 ≤ 2 ∧
      ((Voice.groqTranscribe a1 a2).1 = 2 ↔
        a1 = .timeout ∨ a1 = .netError) := by
  cases a1 <;> cases a2 <;> simp [Voice.openaiTranscribe, Voice.groqTranscribe]

/-! ## C6: malformed or field-less response bodies -/

/-- Counterexample to C6: a well-formed 200 response whose JSON object
lacks the "text" field does not raise — `payload.get("text", "")` makes
`transcribe` return the empty string as a successful transcript (both
backends; Groq shown with a first-attempt response, so no retry occurs). -/
theorem protocol_error_counterexample :
    (Voice.groqTranscribe (.response 200 .textAbsent) .timeout).2 =
        .ok "" ∧
      (Voice.openaiTranscribe (.response 200 .textAbsent)).2 = .ok "" := by
  exact ⟨rfl, rfl⟩

/-- C6 as amended: for a 2xx/3xx response that is neither 401 nor 429, a
malformed JSON body raises a recoverable protocol error, and so does a
"text" field holding a non-string; but an absent "text" field yields the
empty string as a successful transcript instead of an error. -/
theorem protocol_error_cases (st : Nat) (a2 : Voice.HttpAttempt)
    (h401 : st ≠ 401) (h429 : st ≠ 429) (hok : Voice.respOk st = true) :
    (∃ m, (Voice.groqTranscribe (.response st .malformed) a2).2 = .error m) ∧
      (∃ m, (Voice.openaiTranscribe (.response st .malformed)).2 = .error m) ∧
      (∃ m, (Voice.groqTranscribe (.response st .textNonString) a2).2 = .error m) ∧
      (∃ m, (Voice.openaiTranscribe (.response st .textNonString)).2 = .error m) ∧
      (Voice.groqTranscribe (.response st .textAbsent) a2).2 = .ok "" ∧
      (Voice.openaiTranscribe (.response st .textAbsent)).2 = .ok "" := by
  simp [Voice.groqTranscribe, Voice.openaiTranscribe, Voice.handleResponse,
    h401, h429, hok]

/-- Witness for the amended C6 at status 200. -/
theorem protocol_error_cases_witness :
    (∃ m, (Voice.groqTranscribe (.response 200 .malformed) .timeout).2 = .error m) ∧
      (∃ m, (Voice.openaiTranscribe (.response 200 .malformed)).2 = .error m) ∧
      (∃ m, (Voice.groqTranscribe (.response 200 .textNonString) .timeout).2 = .error m) ∧
      (∃ m, (Voice.openaiTranscribe (.response 200 .textNonString)).2 = .error m) ∧
      (Voice.groqTranscribe (.response 200 .textAbsent) .timeout).2 = .ok "" ∧
      (Voice.openaiTranscribe (.response 200 .textAbsent)).2 = .ok "" :=
  protocol_error_cases 200 .timeout (by decide) (by decide) (by decide)

namespace Voice

/-! ## Local backend `transcribe` (gigaam_local.py lines 168–237) -/

/-- `LONGFORM_THRESHOLD_SEC = 25.0` from gigaam_local.py. -/
def LONGFORM_THRESHOLD_SEC : ℚ := 25

/-- The rejection message for over-long buffers (gigaam_local.py lines
199–203). -/
def longformMessage : String :=
  "GigaAM-v3: аудио длиннее 25 секунд. Локальный backend обрабатывает только короткие записи; для длинных используется облачный backend."

/-- The message wrapping a failed model inference (gigaam_local.py
line 231). -/
def gigaamInferErrorMessage : String := "GigaAM-v3: ошибка распознавания."

/-- The message for a non-string transcription (gigaam_local.py line 235). -/
def gigaamFormatErrorMessage : String := "GigaAM-v3: некорректный формат ответа."

/-- `duration_sec = float(total_samples) / float(sample_rate or 1)`,
modelled with exact rationals (the source computes in float64; the inputs
here are integers, and the claims concern durations well away from any
rounding boundary). -/
def gigaamDuration (totalSamples sampleRate : Nat) : ℚ :=
  (totalSamples : ℚ) / ((if sampleRate = 0 then 1 else sampleRate : Nat) : ℚ)

/-- Outcome of `self.model.transcribe(path)`: a string transcription, an
exception, or a non-string return value. -/
inductive InferOutcome where
  | ok (t : String)
  | failed
  | nonString
  deriving DecidableEq, Repr

/-- `GigaAMRecognizer.transcribe`: the duration check runs first and raises
before any inference; otherwise the inference outcome is surfaced
(`transcription or ""` maps a string through unchanged, including the empty
string). -/
def gigaamTranscribe (totalSamples sampleRate : Nat)
    (inference : InferOutcome) : Except String String :=
  if gigaamDuration totalSamples sampleRate > LONGFORM_THRESHOLD_SEC then
    .error longformMessage
  else
    match inference with
    | .ok t => .ok t
    | .failed => .error gigaamInferErrorMessage
    | .nonString => .error gigaamFormatErrorMessage

end Voice

/-! ## C7: local backend duration ceiling -/

/-- C7: the local backend rejects any buffer longer than the fixed
25-second ceiling with the recoverable long-form error before consulting
the model (the result is the rejection for every inference outcome), and a
buffer at or below the ceiling is never rejected by this check (its result
is never the long-form error, whatever inference does). -/
theorem gigaam_duration_ceiling (totalSamples sampleRate : Nat)
    (inference : Voice.InferOutcome) :
    (Voice.gigaamDuration totalSamples sampleRate >
        Voice.LONGFORM_THRESHOLD_SEC →
      Voice.gigaamTranscribe totalSamples sampleRate inference =
        .error Voice.longformMessage) ∧
    (Voice.gigaamDuration totalSamples sampleRate ≤
        Voice.LONGFORM_THRESHOLD_SEC →
      Voice.gigaamTranscribe totalSamples sampleRate inference ≠
        .error Voice.longformMessage) := by
  constructor
  · intro h
    simp [Voice.gigaamTranscribe, h]
  · intro h
    have hnot : ¬ Voice.gigaamDuration totalSamples sampleRate >
        Voice.LONGFORM_THRESHOLD_SEC := not_lt.mpr h
    simp only [Voice.gigaamTranscribe, hnot, if_false]
    cases inference <;> simp [Voice.longformMessage,
      Voice.gigaamInferErrorMessage, Voice.gigaamFormatErrorMessage]

/-- Witness for C7: a 30-second buffer at 16 kHz (480000 samples) is
rejected even though the model would have answered, and a 25-second buffer
(400000 samples) passes the check. -/
theorem gigaam_duration_ceiling_witness :
    Voice.gigaamTranscribe 480000 16000 (.ok "hi") =
        .error Voice.longformMessage ∧
      Voice.gigaamTranscribe 400000 16000 (.ok "hi") ≠
        .error Voice.longformMessage :=
  ⟨(gigaam_duration_ceiling 480000 16000 (.ok "hi")).1 (by
      norm_num [Voice.gigaamDuration, Voice.LONGFORM_THRESHOLD_SEC]),
    (gigaam_duration_ceiling 400000 16000 (.ok "hi")).2 (by
      norm_num [Voice.gigaamDuration, Voice.LONGFORM_THRESHOLD_SEC])⟩

namespace Voice

/-! ## Deterministic cleanup (`TextPostprocessor._simple_cleanup`,
postprocessor.py lines 79–93)

Python:
  text = re.sub(r"\s+", " ", text).strip()
  text = re.sub(r"\s+([,.!?;:])", r"\1", text)
  text = re.sub(r"([,.!?;:])([^\s])", r"\1 \2", text)
  text = re.sub(r"\[[^\]]+\]", "", text).strip()

Each substitution is modelled as a left-to-right scan with Python's
non-overlapping leftmost-match semantics; whitespace (`\s` and `str.strip`)
is modelled by the ASCII whitespace class. -/

/-- The `\s` character class (ASCII part; Python additionally matches some
Unicode whitespace, irrelevant to the properties proved here). -/
def pySpace (c : Char) : Bool :=
  c = ' ' || c = '\t' || c = '\n' || c = '\r' || c = '\x0b' || c = '\x0c'

/-- The `[,.!?;:]` punctuation class of the cleanup regexes. -/
def pyPunct (c : Char) : Bool :=
  c = ',' || c = '.' || c = '!' || c = '?' || c = ';' || c = ':'

/-- One-pass scanner for `re.sub(r"\s+", " ", text)`: `inRun` records
whether the previous character belonged to a whitespace run (whose single
replacement space has already been emitted). -/
def collapseAux : Bool → List Char → List Char
  | _, [] => []
  | inRun, c :: cs =>
    if pySpace c then
      if inRun then collapseAux true cs
      else ' ' :: collapseAux true cs
    else c :: collapseAux false cs

/-- `re.sub(r"\s+", " ", text)`: each maximal whitespace run becomes one
space. -/
def collapseWs (l : List Char) : List Char := collapseAux false l

/-- `str.strip()` from the left. -/
def lstrip (l : List Char) : List Char := l.dropWhile pySpace

/-- `str.strip()` from the right. -/
def rstrip (l : List Char) : List Char := (l.reverse.dropWhile pySpace).reverse

/-- `str.strip()`. -/
def pyStrip (l : List Char) : List Char := rstrip (lstrip l)

/-- One-pass scanner for `re.sub(r"\s+([,.!?;:])", r"\1", text)`: `pend`
buffers the current whitespace run.  A punctuation mark arriving with a
non-empty buffer completes a match: the buffered run is dropped and the
mark emitted (the scan resumes after it); any other character flushes the
buffer unchanged — no shorter match can start inside the run, since every
proper suffix of the run is followed by the same non-punctuation
character. -/
def step2Aux : List Char → List Char → List Char
  | pend, [] => pend
  | pend, c :: cs =>
    if pySpace c then step2Aux (pend ++ [c]) cs
    else if pyPunct c ∧ pend ≠ [] then c :: step2Aux [] cs
    else pend ++ c :: step2Aux [] cs

/-- `re.sub(r"\s+([,.!?;:])", r"\1", text)`: whitespace runs directly
before a punctuation mark are removed. -/
def step2 (l : List Char) : List Char := step2Aux [] l

/-- `re.sub(r"([,.!?;:])([^\s])", r"\1 \2", text)`: a punctuation mark
followed by a non-whitespace character gets a space inserted between them;
the scan resumes after the second character of the match. -/
def step3 : List Char → List Char
  | [] => []
  | [c] => [c]
  | c :: d :: rest =>
    if pyPunct c && !pySpace d then c :: ' ' :: d :: step3 rest
    else c :: step3 (d :: rest)

/-- One-pass scanner for `re.sub(r"\[[^\]]+\]", "", text)`: `buf`, when
present, buffers an opening bracket and the non-"]" characters read since.
A "]" arriving with at least one buffered inner character completes a
match and the whole region is dropped; a "]" arriving right after the "["
(the "[]" case) fails to match and everything is emitted; an unclosed "["
at the end of input is emitted verbatim (no later match can need it, as no
"]" remains). -/
def step4Aux : Option (List Char) → List Char → List Char
  | none, [] => []
  | some buf, [] => buf
  | none, c :: cs =>
    if c = '[' then step4Aux (some [c]) cs
    else c :: step4Aux none cs
  | some buf, c :: cs =>
    if c = ']' then
      if 2 ≤ buf.length then step4Aux none cs
      else buf ++ ']' :: step4Aux none cs
    else step4Aux (some (buf ++ [c])) cs

/-- `re.sub(r"\[[^\]]+\]", "", text)`: bracketed non-empty artifact tags
are removed; "[]" and an unclosed "[" are left alone. -/
def step4 (l : List Char) : List Char := step4Aux none l

/-- `TextPostprocessor._simple_cleanup` on character lists. -/
def cleanupList (l : List Char) : List Char :=
  pyStrip (step4 (step3 (step2 (pyStrip (collapseWs l)))))

/-- `TextPostprocessor._simple_cleanup`. -/
def simpleCleanup (s : String) : String :=
  ⟨cleanupList s.data⟩

end Voice

example : Voice.simpleCleanup "  привет ,мир  !" = "привет, мир!" := by decide

example : Voice.simpleCleanup "a [b] c" = "a  c" := by decide

namespace Voice

/-! ## `TextPostprocessor.process` (postprocessor.py lines 28–75) -/

/-- The defined LLM failure kinds of `_llm_groq` / `_llm_openai`
(postprocessor.py lines 115–309), all raised as `RuntimeError` and all
caught by `process`; `configError` covers the missing-model/key/base-url
`RuntimeError`s raised before any request. -/
inductive LLMError where
  | timeout
  | network
  | auth
  | rateLimited
  | serverError (status : Nat)
  | malformedJson
  | badFormat
  | nonStringContent
  | configError
  | unexpected
  deriving DecidableEq, Repr

/-- The slice of `PostprocessConfig` that `process` consults. -/
structure PostprocessSettings where
  enabled : Bool
  mode : String
  llmBackend : String
  groqApiKey : String
  openaiApiKey : String
  deriving DecidableEq, Repr

/-- `(self.config.mode or "simple").lower()`. -/
def normMode (s : String) : String :=
  if s = "" then "simple" else lowerAscii s

/-- `not api_key.strip()`: a key that is empty or all-whitespace. -/
def keyBlank (k : String) : Bool := pyStrip k.data = []

/-- `TextPostprocessor.process`: the LLM call `_llm_cleanup(cleaned)` is
abstracted as `llm : Except LLMError String` (its `content.strip()` result
or the raised kind).  With postprocessing disabled or mode "simple" only
the regex cleanup runs; in the LLM path a blank key for the selected
backend skips the call; a successful non-empty LLM answer is returned
(`llm_text or cleaned`), and every raised error falls back to the cleaned
text. -/
def process (cfg : PostprocessSettings) (x : String)
    (llm : Except LLMError String) : String :=
  if !cfg.enabled then simpleCleanup x
  else if normMode cfg.mode = "simple" then simpleCleanup x
  else if normBackend cfg.llmBackend = "groq" ∧ keyBlank cfg.groqApiKey then
    simpleCleanup x
  else if normBackend cfg.llmBackend = "openai" ∧ keyBlank cfg.openaiApiKey then
    simpleCleanup x
  else
    match llm with
    | .ok t => if t = "" then simpleCleanup x else t
    | .error _ => simpleCleanup x

/-- No credential is configured for the selected LLM backend. -/
def credentialMissing (cfg : PostprocessSettings) : Prop :=
  (normBackend cfg.llmBackend = "groq" ∧ keyBlank cfg.groqApiKey = true) ∨
    (normBackend cfg.llmBackend = "openai" ∧ keyBlank cfg.openaiApiKey = true)

end Voice

/-! ## C9: postprocessor fallback -/

/-- C9: `process` is a total function (never raises past its boundary,
always yields a string); whenever the LLM step fails with any defined error
kind, or the selected backend has no credential, `process x` returns
exactly the deterministic cleanup of `x` — and in every case the result is
either the cleanup output or a non-empty LLM answer. -/
theorem postprocess_fallback (cfg : Voice.PostprocessSettings) (x : String) :
    (∀ e, Voice.process cfg x (.error e) = Voice.simpleCleanup x) ∧
      (Voice.credentialMissing cfg →
        ∀ llm, Voice.process cfg x llm = Voice.simpleCleanup x) ∧
      (∀ llm, Voice.process cfg x llm = Voice.simpleCleanup x ∨
        ∃ t, llm = .ok t ∧ t ≠ "" ∧ Voice.process cfg x llm = t) := by
  refine ⟨?_, ?_, ?_⟩
  · intro e
    unfold Voice.process
    split_ifs <;> rfl
  · intro hmiss llm
    unfold Voice.process
    split_ifs with h1 h2 h3 h4
    · rfl
    · rfl
    · rfl
    · rfl
    · rcases hmiss with ⟨hb, hk⟩ | ⟨hb, hk⟩
      · exact absurd ⟨hb, hk⟩ h3
      · exact absurd ⟨hb, hk⟩ h4
  · intro llm
    unfold Voice.process
    split_ifs with h1 h2 h3 h4
    · exact Or.inl rfl
    · exact Or.inl rfl
    · exact Or.inl rfl
    · exact Or.inl rfl
    cases llm with
    | ok t =>
      by_cases ht : t = ""
      · exact Or.inl (by simp [ht])
      · exact Or.inr ⟨t, rfl, ht, by simp [ht]⟩
    | error e => exact Or.inl rfl

/-- Witness for C9: with mode "llm", backend "groq" and a blank key, both a
timeout failure and a would-be successful LLM call fall back to the
deterministic cleanup of the input. -/
theorem postprocess_fallback_witness :
    (Voice.process ⟨true, "llm", "groq", "  ", "k"⟩ " a ,b" (.error .timeout) =
        Voice.simpleCleanup " a ,b") ∧
      (Voice.process ⟨true, "llm", "groq", "  ", "k"⟩ " a ,b" (.ok "llm says") =
        Voice.simpleCleanup " a ,b") :=
  ⟨(postprocess_fallback ⟨true, "llm", "groq", "  ", "k"⟩ " a ,b").1 .timeout,
    (postprocess_fallback ⟨true, "llm", "groq", "  ", "k"⟩ " a ,b").2.1
      (Or.inl ⟨by decide, by decide⟩) (.ok "llm says")⟩

namespace Voice

/-! ## Idempotence analysis of `_simple_cleanup`

The bracket-removal pass can merge the spaces around a removed tag into a
double space, which a second cleanup collapses — so cleanup is not
idempotent in general.  On inputs without an opening bracket the bracket
pass is the identity, and the composition of the remaining passes on a
whitespace-collapsed string is computed by the one-pass normaliser
`normPass` below, which is idempotent.

`tame` captures the state of a string after whitespace collapsing: every
whitespace character is a plain space and no two spaces are adjacent. -/

/-- Every whitespace character is `' '` and is followed by a
non-whitespace character (no runs). -/
def tame : List Char → Bool
  | [] => true
  | [c] => !pySpace c || c = ' '
  | c :: d :: r => (!pySpace c || (c = ' ' && !pySpace d)) && tame (d :: r)

/-- The first character, if any, is not whitespace. -/
def noLead (l : List Char) : Prop :=
  ∀ c, l.head? = some c → pySpace c = false

/-- The last character, if any, is not whitespace. -/
def noTrail (l : List Char) : Prop :=
  ∀ c, l.getLast? = some c → pySpace c = false

theorem tame_tail {c : Char} {l : List Char} (h : tame (c :: l) = true) :
    tame l = true := by
  cases l with
  | nil => rfl
  | cons d r => simp only [tame, Bool.and_eq_true] at h; exact h.2

theorem tame_space_eq {c : Char} {l : List Char} (h : tame (c :: l) = true)
    (hs : pySpace c = true) : c = ' ' := by
  cases l with
  | nil =>
    simp only [tame, hs, Bool.not_true, Bool.false_or,
      decide_eq_true_eq] at h
    exact h
  | cons d r =>
    simp only [tame, hs, Bool.not_true, Bool.false_or, Bool.and_eq_true,
      decide_eq_true_eq] at h
    exact h.1.1

theorem tame_space_next {c d : Char} {r : List Char}
    (h : tame (c :: d :: r) = true) (hs : pySpace c = true) :
    pySpace d = false := by
  simp only [tame, hs, Bool.not_true, Bool.false_or, Bool.and_eq_true,
    decide_eq_true_eq, Bool.not_eq_true'] at h
  exact h.1.2

theorem tame_cons_of {c : Char} {l : List Char} (hc : pySpace c = false)
    (hl : tame l = true) : tame (c :: l) = true := by
  cases l with
  | nil => simp [tame, hc]
  | cons d r => simp [tame, hc, hl]

theorem tame_space_cons {l : List Char} {d : Char} (hh : l.head? = some d)
    (hd : pySpace d = false) (hl : tame l = true) :
    tame (' ' :: l) = true := by
  cases l with
  | nil => simp at hh
  | cons e r =>
    simp only [List.head?_cons, Option.some_inj] at hh
    subst hh
    have h1 : pySpace ' ' = true := rfl
    simp [tame, hd, hl, h1]

theorem punct_not_space {c : Char} (h : pyPunct c = true) :
    pySpace c = false := by
  simp only [pyPunct, Bool.or_eq_true, decide_eq_true_eq] at h
  rcases h with ((((h | h) | h) | h) | h) | h <;> subst h <;> rfl

/-- One-pass normal form of the composition
`step3 ∘ step2` on a `tame` string: a whitespace run before punctuation is
dropped, and after each punctuation mark that begins a match a space is
inserted, with the scan resuming past the matched pair. -/
def normPass : List Char → List Char
  | [] => []
  | [c] => [c]
  | c :: d :: r =>
    if pyPunct c then
      if pySpace d then
        match r with
        | e :: r' =>
          if pyPunct e then c :: ' ' :: e :: normPass r'
          else c :: ' ' :: normPass (e :: r')
        | [] => [c, d]
      else c :: ' ' :: d :: normPass r
    else if pySpace c then
      if pyPunct d then normPass (d :: r)
      else c :: normPass (d :: r)
    else c :: normPass (d :: r)

end Voice

namespace Voice

theorem pySpace_space : pySpace ' ' = true := rfl

theorem pyPunct_space : pyPunct ' ' = false := rfl

/-! Unfolding lemmas for `step2Aux`, `step3` and `normPass`. -/

theorem step2_nonspace (c : Char) (cs : List Char) (hc : pySpace c = false) :
    step2Aux [] (c :: cs) = c :: step2Aux [] cs := by
  simp [step2Aux, hc]

theorem step2_space_cons (cs : List Char) :
    step2Aux [] (' ' :: cs) = step2Aux [' '] cs := by
  simp [step2Aux, pySpace_space]

theorem step2Aux_space_punct (d : Char) (r : List Char)
    (hd : pyPunct d = true) :
    step2Aux [' '] (d :: r) = d :: step2Aux [] r := by
  simp [step2Aux, punct_not_space hd, hd]

theorem step2Aux_space_other (d : Char) (r : List Char)
    (hds : pySpace d = false) (hdp : pyPunct d = false) :
    step2Aux [' '] (d :: r) = ' ' :: d :: step2Aux [] r := by
  simp [step2Aux, hds, hdp]

theorem step3_nonpunct (c : Char) (t : List Char) (hc : pyPunct c = false) :
    step3 (c :: t) = c :: step3 t := by
  cases t <;> simp [step3, hc]

theorem step3_match (c d : Char) (t : List Char) (hc : pyPunct c = true)
    (hd : pySpace d = false) :
    step3 (c :: d :: t) = c :: ' ' :: d :: step3 t := by
  simp [step3, hc, hd]

theorem step3_skip (c d : Char) (t : List Char) (hc : pyPunct c = true)
    (hd : pySpace d = true) :
    step3 (c :: d :: t) = c :: step3 (d :: t) := by
  simp [step3, hc, hd]

theorem normPass_other (c : Char) (t : List Char) (hcp : pyPunct c = false)
    (hcs : pySpace c = false) :
    normPass (c :: t) = c :: normPass t := by
  cases t with
  | nil => rfl
  | cons d r => rw [normPass.eq_def]; simp [hcp, hcs]

theorem normPass_space_punct (d : Char) (r : List Char)
    (hd : pyPunct d = true) :
    normPass (' ' :: d :: r) = normPass (d :: r) := by
  rw [normPass.eq_def]
  simp [pyPunct_space, pySpace_space, hd]

theorem normPass_space_other (d : Char) (r : List Char)
    (hd : pyPunct d = false) :
    normPass (' ' :: d :: r) = ' ' :: normPass (d :: r) := by
  rw [normPass.eq_def]
  simp [pyPunct_space, pySpace_space, hd]

theorem normPass_punct_nonspace (c d : Char) (r : List Char)
    (hc : pyPunct c = true) (hd : pySpace d = false) :
    normPass (c :: d :: r) = c :: ' ' :: d :: normPass r := by
  rw [normPass.eq_def]
  simp [hc, hd]

theorem normPass_punct_space_nil (c d : Char) (hc : pyPunct c = true)
    (hd : pySpace d = true) :
    normPass [c, d] = [c, d] := by
  rw [normPass.eq_def]
  simp [hc, hd]

theorem normPass_punct_space_punct (c d e : Char) (r : List Char)
    (hc : pyPunct c = true) (hd : pySpace d = true) (he : pyPunct e = true) :
    normPass (c :: d :: e :: r) = c :: ' ' :: e :: normPass r := by
  rw [normPass.eq_def]
  simp [hc, hd, he]

theorem normPass_punct_space_other (c d e : Char) (r : List Char)
    (hc : pyPunct c = true) (hd : pySpace d = true) (he : pyPunct e = false) :
    normPass (c :: d :: e :: r) = c :: ' ' :: normPass (e :: r) := by
  rw [normPass.eq_def]
  simp [hc, hd, he]

/-- On a `tame` string the two middle regex passes compute exactly
`normPass`. -/
theorem step32_eq_normPass : ∀ z, tame z = true →
    step3 (step2Aux [] z) = normPass z := by
  have main : ∀ n z, z.length ≤ n → tame z = true →
      step3 (step2Aux [] z) = normPass z := by
    intro n
    induction n with
    | zero =>
      intro z hz _
      cases z with
      | nil => rfl
      | cons c zs => simp at hz
    | succ n ih =>
      intro z hz ht
      cases z with
      | nil => rfl
      | cons c zs =>
        cases zs with
        | nil =>
          have h1 : step2Aux [] [c] = [c] := by
            by_cases hc : pySpace c = true <;> simp [step2Aux, hc]
          rw [h1]
          rfl
        | cons d r =>
          have hlen : (d :: r).length ≤ n := by
            simp only [List.length_cons] at hz ⊢; omega
          have hlenr : r.length ≤ n := by
            simp only [List.length_cons] at hz ⊢; omega
          by_cases hcs : pySpace c = true
          · -- whitespace head: it is ' ' and the next char is not whitespace
            have hceq : c = ' ' := tame_space_eq ht hcs
            subst hceq
            have hd : pySpace d = false := tame_space_next ht hcs
            by_cases hdp : pyPunct d = true
            · rw [step2_space_cons, step2Aux_space_punct d r hdp,
                normPass_space_punct d r hdp]
              rw [← step2_nonspace d r hd]
              exact ih (d :: r) hlen (tame_tail ht)
            · have hdp' : pyPunct d = false := by
                simpa using hdp
              rw [step2_space_cons, step2Aux_space_other d r hd hdp',
                normPass_space_other d r hdp',
                step3_nonpunct ' ' _ pyPunct_space]
              rw [← step2_nonspace d r hd]
              rw [ih (d :: r) hlen (tame_tail ht)]
          · have hcs' : pySpace c = false := by simpa using hcs
            by_cases hcp : pyPunct c = true
            · by_cases hds : pySpace d = true
              · have hdeq : d = ' ' := tame_space_eq (tame_tail ht) hds
                subst hdeq
                cases r with
                | nil =>
                  rw [step2_nonspace c [' '] hcs', step2_space_cons]
                  rw [show step2Aux [' '] ([] : List Char) = [' '] from rfl]
                  rw [step3_skip c ' ' [] hcp pySpace_space,
                    normPass_punct_space_nil c ' ' hcp pySpace_space]
                  rfl
                | cons e r' =>
                  have hes : pySpace e = false :=
                    tame_space_next (tame_tail ht) pySpace_space
                  have hlenr' : r'.length ≤ n := by
                    simp only [List.length_cons] at hz ⊢; omega
                  have hlener' : (e :: r').length ≤ n := by
                    simp only [List.length_cons] at hz ⊢; omega
                  by_cases hep : pyPunct e = true
                  · rw [step2_nonspace c _ hcs', step2_space_cons,
                      step2Aux_space_punct e r' hep,
                      step3_match c e _ hcp hes,
                      normPass_punct_space_punct c ' ' e r' hcp
                        pySpace_space hep]
                    have := ih r' hlenr' (tame_tail (tame_tail (tame_tail ht)))
                    rw [this]
                  · have hep' : pyPunct e = false := by simpa using hep
                    rw [step2_nonspace c _ hcs', step2_space_cons,
                      step2Aux_space_other e r' hes hep',
                      step3_skip c ' ' _ hcp pySpace_space,
                      step3_nonpunct ' ' _ pyPunct_space,
                      normPass_punct_space_other c ' ' e r' hcp
                        pySpace_space hep']
                    rw [← step2_nonspace e r' hes]
                    rw [ih (e :: r') hlener'
                      (tame_tail (tame_tail ht))]
              · have hds' : pySpace d = false := by simpa using hds
                rw [step2_nonspace c _ hcs', step2_nonspace d r hds',
                  step3_match c d _ hcp hds',
                  normPass_punct_nonspace c d r hcp hds']
                rw [ih r hlenr (tame_tail (tame_tail ht))]
            · have hcp' : pyPunct c = false := by simpa using hcp
              rw [step2_nonspace c _ hcs', step3_nonpunct c _ hcp',
                normPass_other c _ hcp' hcs']
              rw [ih (d :: r) hlen (tame_tail ht)]
  intro z ht
  exact main z.length z le_rfl ht

end Voice

namespace Voice

theorem space_not_punct {c : Char} (h : pySpace c = true) :
    pyPunct c = false := by
  by_cases hp : pyPunct c = true
  · rw [punct_not_space hp] at h
    exact absurd h (by simp)
  · simpa using hp

theorem normPass_gspace_punct (c d : Char) (r : List Char)
    (hcs : pySpace c = true) (hd : pyPunct d = true) :
    normPass (c :: d :: r) = normPass (d :: r) := by
  rw [normPass.eq_def]
  simp [space_not_punct hcs, hcs, hd]

theorem normPass_gspace_other (c d : Char) (r : List Char)
    (hcs : pySpace c = true) (hd : pyPunct d = false) :
    normPass (c :: d :: r) = c :: normPass (d :: r) := by
  rw [normPass.eq_def]
  simp [space_not_punct hcs, hcs, hd]

theorem normPass_ne_nil : ∀ z : List Char, z ≠ [] → normPass z ≠ [] := by
  have main : ∀ n (z : List Char), z.length ≤ n → z ≠ [] →
      normPass z ≠ [] := by
    intro n
    induction n with
    | zero =>
      intro z hz hne
      cases z with
      | nil => exact absurd rfl hne
      | cons c zs => simp at hz
    | succ n ih =>
      intro z hz hne
      cases z with
      | nil => exact absurd rfl hne
      | cons c zs =>
        cases zs with
        | nil => simp [normPass]
        | cons d r =>
          have hlen : (d :: r).length ≤ n := by
            simp only [List.length_cons] at hz ⊢; omega
          by_cases hcp : pyPunct c = true
          · by_cases hds : pySpace d = true
            · cases r with
              | nil => rw [normPass_punct_space_nil c d hcp hds]; simp
              | cons e r' =>
                by_cases hep : pyPunct e = true
                · rw [normPass_punct_space_punct c d e r' hcp hds hep]; simp
                · rw [normPass_punct_space_other c d e r' hcp hds
                    (by simpa using hep)]
                  simp
            · rw [normPass_punct_nonspace c d r hcp (by simpa using hds)]
              simp
          · by_cases hcs : pySpace c = true
            · by_cases hdp : pyPunct d = true
              · rw [normPass_gspace_punct c d r hcs hdp]
                exact ih (d :: r) hlen (by simp)
              · rw [normPass_gspace_other c d r hcs (by simpa using hdp)]
                simp
            · rw [normPass_other c _ (by simpa using hcp) (by simpa using hcs)]
              simp
  intro z hne
  exact main z.length z le_rfl hne

theorem normPass_head (c : Char) (t : List Char) (hc : pySpace c = false) :
    (normPass (c :: t)).head? = some c := by
  cases t with
  | nil => rfl
  | cons d r =>
    by_cases hcp : pyPunct c = true
    · by_cases hds : pySpace d = true
      · cases r with
        | nil => rw [normPass_punct_space_nil c d hcp hds]; rfl
        | cons e r' =>
          by_cases hep : pyPunct e = true
          · rw [normPass_punct_space_punct c d e r' hcp hds hep]; rfl
          · rw [normPass_punct_space_other c d e r' hcp hds
              (by simpa using hep)]
            rfl
      · rw [normPass_punct_nonspace c d r hcp (by simpa using hds)]; rfl
    · rw [normPass_other c _ (by simpa using hcp) hc]; rfl

theorem head?_eq_cons {t : List Char} {d : Char} (h : t.head? = some d) :
    ∃ t', t = d :: t' := by
  cases t with
  | nil => simp at h
  | cons e t' =>
    simp only [List.head?_cons, Option.some_inj] at h
    exact ⟨t', by rw [h]⟩

end Voice

namespace Voice

theorem tame_single_space : tame [' '] = true := by decide

/-- `normPass` keeps tameness: it inserts only single spaces, each followed
by a non-whitespace character. -/
theorem normPass_tame : ∀ z, tame z = true → tame (normPass z) = true := by
  have main : ∀ n z, z.length ≤ n → tame z = true →
      tame (normPass z) = true := by
    intro n
    induction n with
    | zero =>
      intro z hz _
      cases z with
      | nil => rfl
      | cons c zs => simp at hz
    | succ n ih =>
      intro z hz ht
      cases z with
      | nil => rfl
      | cons c zs =>
        cases zs with
        | nil => exact ht
        | cons d r =>
          have hlen : (d :: r).length ≤ n := by
            simp only [List.length_cons] at hz ⊢; omega
          have hlenr : r.length ≤ n := by
            simp only [List.length_cons] at hz ⊢; omega
          by_cases hcp : pyPunct c = true
          · have hcs : pySpace c = false := punct_not_space hcp
            by_cases hds : pySpace d = true
            · cases r with
              | nil =>
                have hdeq : d = ' ' := tame_space_eq (tame_tail ht) hds
                subst hdeq
                rw [normPass_punct_space_nil c ' ' hcp hds]
                exact tame_cons_of hcs tame_single_space
              | cons e r' =>
                have hes : pySpace e = false :=
                  tame_space_next (tame_tail ht) hds
                have hlenr' : r'.length ≤ n := by
                  simp only [List.length_cons] at hz ⊢; omega
                have hlener' : (e :: r').length ≤ n := by
                  simp only [List.length_cons] at hz ⊢; omega
                by_cases hep : pyPunct e = true
                · rw [normPass_punct_space_punct c d e r' hcp hds hep]
                  have htr' : tame r' = true :=
                    tame_tail (tame_tail (tame_tail ht))
                  exact tame_cons_of hcs
                    (tame_space_cons rfl hes
                      (tame_cons_of hes (ih r' hlenr' htr')))
                · rw [normPass_punct_space_other c d e r' hcp hds
                    (by simpa using hep)]
                  have hter' : tame (e :: r') = true :=
                    tame_tail (tame_tail ht)
                  exact tame_cons_of hcs
                    (tame_space_cons (normPass_head e r' hes) hes
                      (ih (e :: r') hlener' hter'))
            · have hds' : pySpace d = false := by simpa using hds
              rw [normPass_punct_nonspace c d r hcp hds']
              have htr : tame r = true := tame_tail (tame_tail ht)
              exact tame_cons_of hcs
                (tame_space_cons rfl hds'
                  (tame_cons_of hds' (ih r hlenr htr)))
          · by_cases hcs : pySpace c = true
            · have hceq : c = ' ' := tame_space_eq ht hcs
              subst hceq
              have hd : pySpace d = false := tame_space_next ht hcs
              by_cases hdp : pyPunct d = true
              · rw [normPass_gspace_punct ' ' d r hcs hdp]
                exact ih (d :: r) hlen (tame_tail ht)
              · rw [normPass_gspace_other ' ' d r hcs (by simpa using hdp)]
                exact tame_space_cons (normPass_head d r hd) hd
                  (ih (d :: r) hlen (tame_tail ht))
            · have hcs' : pySpace c = false := by simpa using hcs
              rw [normPass_other c _ (by simpa using hcp) hcs']
              exact tame_cons_of hcs' (ih (d :: r) hlen (tame_tail ht))
  intro z ht
  exact main z.length z le_rfl ht

/-- `normPass` is idempotent on tame strings. -/
theorem normPass_idem : ∀ z, tame z = true →
    normPass (normPass z) = normPass z := by
  have main : ∀ n z, z.length ≤ n → tame z = true →
      normPass (normPass z) = normPass z := by
    intro n
    induction n with
    | zero =>
      intro z hz _
      cases z with
      | nil => rfl
      | cons c zs => simp at hz
    | succ n ih =>
      intro z hz ht
      cases z with
      | nil => rfl
      | cons c zs =>
        cases zs with
        | nil => rfl
        | cons d r =>
          have hlen : (d :: r).length ≤ n := by
            simp only [List.length_cons] at hz ⊢; omega
          have hlenr : r.length ≤ n := by
            simp only [List.length_cons] at hz ⊢; omega
          by_cases hcp : pyPunct c = true
          · have hcs : pySpace c = false := punct_not_space hcp
            by_cases hds : pySpace d = true
            · cases r with
              | nil =>
                have hdeq : d = ' ' := tame_space_eq (tame_tail ht) hds
                subst hdeq
                rw [normPass_punct_space_nil c ' ' hcp hds,
                  normPass_punct_space_nil c ' ' hcp hds]
              | cons e r' =>
                have hes : pySpace e = false :=
                  tame_space_next (tame_tail ht) hds
                have hlenr' : r'.length ≤ n := by
                  simp only [List.length_cons] at hz ⊢; omega
                have hlener' : (e :: r').length ≤ n := by
                  simp only [List.length_cons] at hz ⊢; omega
                by_cases hep : pyPunct e = true
                · rw [normPass_punct_space_punct c d e r' hcp hds hep,
                    normPass_punct_space_punct c ' ' e (normPass r') hcp
                      pySpace_space hep]
                  rw [ih r' hlenr' (tame_tail (tame_tail (tame_tail ht)))]
                · have hep' : pyPunct e = false := by simpa using hep
                  rw [normPass_punct_space_other c d e r' hcp hds hep']
                  obtain ⟨t', htt⟩ :=
                    head?_eq_cons (normPass_head e r' hes)
                  rw [htt, normPass_punct_space_other c ' ' e t' hcp
                    pySpace_space hep']
                  rw [← htt]
                  rw [ih (e :: r') hlener' (tame_tail (tame_tail ht))]
            · have hds' : pySpace d = false := by simpa using hds
              rw [normPass_punct_nonspace c d r hcp hds']
              by_cases hdp : pyPunct d = true
              · rw [normPass_punct_space_punct c ' ' d (normPass r) hcp
                  pySpace_space hdp]
                rw [ih r hlenr (tame_tail (tame_tail ht))]
              · have hdp' : pyPunct d = false := by simpa using hdp
                rw [normPass_punct_space_other c ' ' d (normPass r) hcp
                  pySpace_space hdp']
                rw [normPass_other d _ hdp' hds']
                rw [ih r hlenr (tame_tail (tame_tail ht))]
          · by_cases hcs : pySpace c = true
            · have hceq : c = ' ' := tame_space_eq ht hcs
              subst hceq
              have hd : pySpace d = false := tame_space_next ht hcs
              by_cases hdp : pyPunct d = true
              · rw [normPass_gspace_punct ' ' d r hcs hdp]
                exact ih (d :: r) hlen (tame_tail ht)
              · have hdp' : pyPunct d = false := by simpa using hdp
                rw [normPass_gspace_other ' ' d r hcs hdp']
                obtain ⟨t', htt⟩ := head?_eq_cons (normPass_head d r hd)
                rw [htt, normPass_gspace_other ' ' d t' pySpace_space hdp']
                rw [← htt]
                rw [ih (d :: r) hlen (tame_tail ht)]
            · have hcs' : pySpace c = false := by simpa using hcs
              have hcp' : pyPunct c = false := by simpa using hcp
              rw [normPass_other c _ hcp' hcs',
                normPass_other c _ hcp' hcs']
              rw [ih (d :: r) hlen (tame_tail ht)]
  intro z ht
  exact main z.length z le_rfl ht

end Voice

namespace Voice

theorem getLast?_cons_ne {a : Char} {t : List Char} (h : t ≠ []) :
    (a :: t).getLast? = t.getLast? := by
  cases t with
  | nil => exact absurd rfl h
  | cons b t' => exact List.getLast?_cons_cons

theorem noTrail_tail_of {a : Char} {t : List Char} (h : t ≠ [])
    (hnt : noTrail (a :: t)) : noTrail t := by
  intro c hc
  exact hnt c (by rw [getLast?_cons_ne h]; exact hc)

theorem noTrail_cons_of {a : Char} {t : List Char} (h : t ≠ [])
    (hnt : noTrail t) : noTrail (a :: t) := by
  intro c hc
  rw [getLast?_cons_ne h] at hc
  exact hnt c hc

theorem noTrail_single {a : Char} (ha : pySpace a = false) :
    noTrail [a] := by
  intro c hc
  have : a = c := by simpa using hc
  subst this
  exact ha

/-- `normPass` never ends in a space when its tame input does not. -/
theorem normPass_noTrail : ∀ z, tame z = true → noTrail z →
    noTrail (normPass z) := by
  have main : ∀ n z, z.length ≤ n → tame z = true → noTrail z →
      noTrail (normPass z) := by
    intro n
    induction n with
    | zero =>
      intro z hz _ _
      cases z with
      | nil =>
        intro c hc
        rw [show normPass ([] : List Char) = [] from rfl] at hc
        simp at hc
      | cons c zs => simp at hz
    | succ n ih =>
      intro z hz ht hnt
      cases z with
      | nil =>
        intro c hc
        rw [show normPass ([] : List Char) = [] from rfl] at hc
        simp at hc
      | cons c zs =>
        cases zs with
        | nil => exact hnt
        | cons d r =>
          have hlen : (d :: r).length ≤ n := by
            simp only [List.length_cons] at hz ⊢; omega
          have hlenr : r.length ≤ n := by
            simp only [List.length_cons] at hz ⊢; omega
          by_cases hcp : pyPunct c = true
          · have hcs : pySpace c = false := punct_not_space hcp
            by_cases hds : pySpace d = true
            · cases r with
              | nil =>
                have := hnt d (by simp)
                rw [this] at hds
                exact absurd hds (by simp)
              | cons e r' =>
                have hes : pySpace e = false :=
                  tame_space_next (tame_tail ht) hds
                have hlenr' : r'.length ≤ n := by
                  simp only [List.length_cons] at hz ⊢; omega
                have hlener' : (e :: r').length ≤ n := by
                  simp only [List.length_cons] at hz ⊢; omega
                by_cases hep : pyPunct e = true
                · rw [normPass_punct_space_punct c d e r' hcp hds hep]
                  cases r' with
                  | nil =>
                    exact noTrail_cons_of (by simp)
                      (noTrail_cons_of (by simp) (noTrail_single hes))
                  | cons f r'' =>
                    have hne : normPass (f :: r'') ≠ [] :=
                      normPass_ne_nil _ (by simp)
                    have hntr' : noTrail (f :: r'') :=
                      noTrail_tail_of (by simp)
                        (noTrail_tail_of (by simp)
                          (noTrail_tail_of (by simp) hnt))
                    have htr' : tame (f :: r'') = true :=
                      tame_tail (tame_tail (tame_tail ht))
                    exact noTrail_cons_of (by simp)
                      (noTrail_cons_of (by simp)
                        (noTrail_cons_of hne (ih _ hlenr' htr' hntr')))
                · rw [normPass_punct_space_other c d e r' hcp hds
                    (by simpa using hep)]
                  have hne : normPass (e :: r') ≠ [] :=
                    normPass_ne_nil _ (by simp)
                  have hnter : noTrail (e :: r') :=
                    noTrail_tail_of (by simp)
                      (noTrail_tail_of (by simp) hnt)
                  exact noTrail_cons_of (by simp)
                    (noTrail_cons_of hne
                      (ih _ hlener' (tame_tail (tame_tail ht)) hnter))
            · have hds' : pySpace d = false := by simpa using hds
              rw [normPass_punct_nonspace c d r hcp hds']
              cases r with
              | nil =>
                have hd0 : pySpace d = false := by
                  exact hnt d (by simp)
                exact noTrail_cons_of (by simp)
                  (noTrail_cons_of (by simp) (noTrail_single hd0))
              | cons f r'' =>
                have hne : normPass (f :: r'') ≠ [] :=
                  normPass_ne_nil _ (by simp)
                have hntr : noTrail (f :: r'') :=
                  noTrail_tail_of (by simp)
                    (noTrail_tail_of (by simp) hnt)
                exact noTrail_cons_of (by simp)
                  (noTrail_cons_of (by simp)
                    (noTrail_cons_of hne
                      (ih _ hlenr (tame_tail (tame_tail ht)) hntr)))
          · by_cases hcs : pySpace c = true
            · by_cases hdp : pyPunct d = true
              · rw [normPass_gspace_punct c d r hcs hdp]
                exact ih _ hlen (tame_tail ht)
                  (noTrail_tail_of (by simp) hnt)
              · rw [normPass_gspace_other c d r hcs (by simpa using hdp)]
                have hne : normPass (d :: r) ≠ [] :=
                  normPass_ne_nil _ (by simp)
                exact noTrail_cons_of hne
                  (ih _ hlen (tame_tail ht)
                    (noTrail_tail_of (by simp) hnt))
            · rw [normPass_other c _ (by simpa using hcp)
                (by simpa using hcs)]
              have hne : normPass (d :: r) ≠ [] :=
                normPass_ne_nil _ (by simp)
              exact noTrail_cons_of hne
                (ih _ hlen (tame_tail ht)
                  (noTrail_tail_of (by simp) hnt))
  intro z ht hnt
  exact main z.length z le_rfl ht hnt

end Voice

namespace Voice

/-! Facts about collapse and strip needed for the idempotence assembly. -/

theorem collapseAux_true_head {cs : List Char} {e : Char}
    (h : (collapseAux true cs).head? = some e) : pySpace e = false := by
  induction cs with
  | nil => simp [collapseAux] at h
  | cons c cs ih =>
    by_cases hc : pySpace c = true
    · rw [show collapseAux true (c :: cs) = collapseAux true cs by
        simp [collapseAux, hc]] at h
      exact ih h
    · have hc' : pySpace c = false := by simpa using hc
      rw [show collapseAux true (c :: cs) = c :: collapseAux false cs by
        simp [collapseAux, hc']] at h
      have : c = e := by simpa using h
      subst this
      exact hc'

theorem collapseAux_tame : ∀ (cs : List Char) (b : Bool),
    tame (collapseAux b cs) = true := by
  intro cs
  induction cs with
  | nil => intro b; rfl
  | cons c cs ih =>
    intro b
    by_cases hc : pySpace c = true
    · cases b with
      | true =>
        rw [show collapseAux true (c :: cs) = collapseAux true cs by
          simp [collapseAux, hc]]
        exact ih true
      | false =>
        rw [show collapseAux false (c :: cs) = ' ' :: collapseAux true cs by
          simp [collapseAux, hc]]
        cases hh : (collapseAux true cs).head? with
        | none =>
          rw [List.head?_eq_none_iff.mp hh]
          exact tame_single_space
        | some e =>
          exact tame_space_cons hh (collapseAux_true_head hh) (ih true)
    · have hc' : pySpace c = false := by simpa using hc
      rw [show collapseAux b (c :: cs) = c :: collapseAux false cs by
        simp [collapseAux, hc']]
      exact tame_cons_of hc' (ih false)

theorem collapseAux_mem : ∀ (cs : List Char) (b : Bool) (a : Char),
    a ∈ collapseAux b cs → a = ' ' ∨ a ∈ cs := by
  intro cs
  induction cs with
  | nil => intro b a h; simp [collapseAux] at h
  | cons c cs ih =>
    intro b a h
    by_cases hc : pySpace c = true
    · cases b with
      | true =>
        rw [show collapseAux true (c :: cs) = collapseAux true cs by
          simp [collapseAux, hc]] at h
        rcases ih true a h with h1 | h1
        · exact Or.inl h1
        · exact Or.inr (by simp [h1])
      | false =>
        rw [show collapseAux false (c :: cs) = ' ' :: collapseAux true cs by
          simp [collapseAux, hc]] at h
        rcases List.mem_cons.mp h with h1 | h1
        · exact Or.inl h1
        · rcases ih true a h1 with h2 | h2
          · exact Or.inl h2
          · exact Or.inr (by simp [h2])
    · have hc' : pySpace c = false := by simpa using hc
      rw [show collapseAux b (c :: cs) = c :: collapseAux false cs by
        simp [collapseAux, hc']] at h
      rcases List.mem_cons.mp h with h1 | h1
      · exact Or.inr (by simp [h1])
      · rcases ih false a h1 with h2 | h2
        · exact Or.inl h2
        · exact Or.inr (by simp [h2])

theorem collapseAux_true_of_head {cs : List Char} :
    (∀ e, cs.head? = some e → pySpace e = false) →
    collapseAux true cs = collapseAux false cs := by
  intro h
  cases cs with
  | nil => rfl
  | cons c cs =>
    have hc : pySpace c = false := h c rfl
    simp [collapseAux, hc]

theorem collapseWs_fix : ∀ l, tame l = true → collapseWs l = l := by
  intro l
  induction l with
  | nil => intro _; rfl
  | cons c cs ih =>
    intro ht
    by_cases hc : pySpace c = true
    · have hceq : c = ' ' := tame_space_eq ht hc
      subst hceq
      show collapseAux false (' ' :: cs) = ' ' :: cs
      rw [show collapseAux false (' ' :: cs) = ' ' :: collapseAux true cs by
        simp [collapseAux, pySpace_space]]
      cases cs with
      | nil => rfl
      | cons d cs' =>
        have hd : pySpace d = false := tame_space_next ht hc
        rw [collapseAux_true_of_head (fun e he => by
          have : d = e := by simpa using he
          subst this; exact hd)]
        rw [show collapseAux false (d :: cs') = d :: cs' from ih (tame_tail ht)]
    · have hc' : pySpace c = false := by simpa using hc
      show collapseAux false (c :: cs) = c :: cs
      rw [show collapseAux false (c :: cs) = c :: collapseAux false cs by
        simp [collapseAux, hc']]
      rw [show collapseAux false cs = cs from ih (tame_tail ht)]

theorem tame_dropWhile (l : List Char) (h : tame l = true) :
    tame (l.dropWhile pySpace) = true := by
  induction l with
  | nil => exact h
  | cons c cs ih =>
    by_cases hc : pySpace c = true
    · rw [List.dropWhile_cons_of_pos (by simpa using hc)]
      exact ih (tame_tail h)
    · rwa [List.dropWhile_cons_of_neg (by simpa using hc)]

theorem tame_prefix : ∀ (l₁ l₂ : List Char),
    tame (l₁ ++ l₂) = true → tame l₁ = true := by
  intro l₁
  induction l₁ with
  | nil => intro l₂ _; rfl
  | cons a l₁ ih =>
    intro l₂ h
    cases l₁ with
    | nil =>
      cases l₂ with
      | nil => exact h
      | cons b l₂' =>
        simp only [List.cons_append, List.nil_append, tame,
          Bool.and_eq_true, Bool.or_eq_true] at h ⊢
        rcases h.1 with h1 | h1
        · exact Or.inl h1
        · exact Or.inr h1.1
    | cons b l₁' =>
      have h' : tame ((b :: l₁') ++ l₂) = true := tame_tail h
      have hb : tame (b :: l₁') = true := ih l₂ h'
      simp only [List.cons_append, tame, Bool.and_eq_true] at h ⊢
      exact ⟨h.1, hb⟩

theorem rstrip_prefix (l : List Char) : ∃ t, l = rstrip l ++ t := by
  obtain ⟨t, ht⟩ := List.dropWhile_suffix (l := l.reverse) pySpace
  refine ⟨t.reverse, ?_⟩
  have : l.reverse.reverse = (t ++ l.reverse.dropWhile pySpace).reverse := by
    rw [ht]
  simpa [rstrip, List.reverse_append] using this

theorem tame_rstrip (l : List Char) (h : tame l = true) :
    tame (rstrip l) = true := by
  obtain ⟨t, ht⟩ := rstrip_prefix l
  rw [ht] at h
  exact tame_prefix _ _ h

theorem dropWhile_eq_self_of_head {l : List Char}
    (h : ∀ e, l.head? = some e → pySpace e = false) :
    l.dropWhile pySpace = l := by
  cases l with
  | nil => rfl
  | cons c cs =>
    have hc : pySpace c = false := h c rfl
    rw [List.dropWhile_cons_of_neg (by simp [hc])]

theorem head_dropWhile_nonspace {l : List Char} {e : Char}
    (h : (l.dropWhile pySpace).head? = some e) : pySpace e = false := by
  induction l with
  | nil => simp at h
  | cons c cs ih =>
    by_cases hc : pySpace c = true
    · rw [List.dropWhile_cons_of_pos (by simpa using hc)] at h
      exact ih h
    · rw [List.dropWhile_cons_of_neg (by simpa using hc)] at h
      have : c = e := by simpa using h
      subst this
      simpa using hc

theorem rstrip_getLast_nonspace {l : List Char} {e : Char}
    (h : (rstrip l).getLast? = some e) : pySpace e = false := by
  rw [rstrip, List.getLast?_reverse] at h
  exact head_dropWhile_nonspace h

theorem rstrip_eq_self_of_noTrail {l : List Char} (h : noTrail l) :
    rstrip l = l := by
  rw [rstrip, dropWhile_eq_self_of_head (fun e he => by
    rw [List.head?_reverse] at he
    exact h e he)]
  exact l.reverse_reverse

theorem lstrip_eq_self_of_noLead {l : List Char} (h : noLead l) :
    lstrip l = l := dropWhile_eq_self_of_head h

theorem pyStrip_tame (l : List Char) (h : tame l = true) :
    tame (pyStrip l) = true :=
  tame_rstrip _ (tame_dropWhile _ h)

theorem pyStrip_noLead (l : List Char) : noLead (pyStrip l) := by
  intro e he
  have he' : (rstrip (lstrip l)).head? = some e := he
  obtain ⟨t, ht⟩ := rstrip_prefix (lstrip l)
  have hel : (lstrip l).head? = some e := by
    rw [ht]
    cases hx : rstrip (lstrip l) with
    | nil => rw [hx] at he'; simp at he'
    | cons x xs =>
      rw [hx] at he'
      simpa using he'
  exact head_dropWhile_nonspace hel

theorem pyStrip_noTrail (l : List Char) : noTrail (pyStrip l) := by
  intro e he
  exact rstrip_getLast_nonspace he

theorem pyStrip_eq_self {l : List Char} (h1 : noLead l) (h2 : noTrail l) :
    pyStrip l = l := by
  rw [pyStrip, lstrip_eq_self_of_noLead h1, rstrip_eq_self_of_noTrail h2]

theorem pyStrip_mem {l : List Char} {a : Char} (h : a ∈ pyStrip l) :
    a ∈ l := by
  obtain ⟨t, ht⟩ := rstrip_prefix (lstrip l)
  have h1 : a ∈ lstrip l := by rw [ht]; exact List.mem_append_left _ h
  exact (List.dropWhile_suffix pySpace).subset h1

end Voice

namespace Voice

/-- `normPass` introduces only spaces; every other output character comes
from the input. -/
theorem normPass_mem : ∀ (z : List Char) (a : Char),
    a ∈ normPass z → a = ' ' ∨ a ∈ z := by
  have main : ∀ n (z : List Char), z.length ≤ n → ∀ a,
      a ∈ normPass z → a = ' ' ∨ a ∈ z := by
    intro n
    induction n with
    | zero =>
      intro z hz a h
      cases z with
      | nil =>
        rw [show normPass ([] : List Char) = [] from rfl] at h
        simp at h
      | cons c zs => simp at hz
    | succ n ih =>
      intro z hz a h
      cases z with
      | nil =>
        rw [show normPass ([] : List Char) = [] from rfl] at h
        simp at h
      | cons c zs =>
        cases zs with
        | nil =>
          rw [show normPass [c] = [c] from rfl] at h
          exact Or.inr h
        | cons d r =>
          have hlen : (d :: r).length ≤ n := by
            simp only [List.length_cons] at hz ⊢; omega
          have hlenr : r.length ≤ n := by
            simp only [List.length_cons] at hz ⊢; omega
          by_cases hcp : pyPunct c = true
          · by_cases hds : pySpace d = true
            · cases r with
              | nil =>
                rw [normPass_punct_space_nil c d hcp hds] at h
                exact Or.inr h
              | cons e r' =>
                have hlenr' : r'.length ≤ n := by
                  simp only [List.length_cons] at hz ⊢; omega
                have hlener' : (e :: r').length ≤ n := by
                  simp only [List.length_cons] at hz ⊢; omega
                by_cases hep : pyPunct e = true
                · rw [normPass_punct_space_punct c d e r' hcp hds hep] at h
                  rcases List.mem_cons.mp h with h1 | h1
                  · exact Or.inr (by simp [h1])
                  rcases List.mem_cons.mp h1 with h2 | h2
                  · exact Or.inl h2
                  rcases List.mem_cons.mp h2 with h3 | h3
                  · exact Or.inr (by simp [h3])
                  · rcases ih r' hlenr' a h3 with h4 | h4
                    · exact Or.inl h4
                    · exact Or.inr (by simp [h4])
                · rw [normPass_punct_space_other c d e r' hcp hds
                    (by simpa using hep)] at h
                  rcases List.mem_cons.mp h with h1 | h1
                  · exact Or.inr (by simp [h1])
                  rcases List.mem_cons.mp h1 with h2 | h2
                  · exact Or.inl h2
                  · rcases ih (e :: r') hlener' a h2 with h3 | h3
                    · exact Or.inl h3
                    · rcases List.mem_cons.mp h3 with h4 | h4
                      · exact Or.inr (by simp [h4])
                      · exact Or.inr (by simp [h4])
            · rw [normPass_punct_nonspace c d r hcp (by simpa using hds)] at h
              rcases List.mem_cons.mp h with h1 | h1
              · exact Or.inr (by simp [h1])
              rcases List.mem_cons.mp h1 with h2 | h2
              · exact Or.inl h2
              rcases List.mem_cons.mp h2 with h3 | h3
              · exact Or.inr (by simp [h3])
              · rcases ih r hlenr a h3 with h4 | h4
                · exact Or.inl h4
                · exact Or.inr (by simp [h4])
          · by_cases hcs : pySpace c = true
            · by_cases hdp : pyPunct d = true
              · rw [normPass_gspace_punct c d r hcs hdp] at h
                rcases ih (d :: r) hlen a h with h1 | h1
                · exact Or.inl h1
                · exact Or.inr (by simp [h1])
              · rw [normPass_gspace_other c d r hcs (by simpa using hdp)] at h
                rcases List.mem_cons.mp h with h1 | h1
                · exact Or.inr (by simp [h1])
                · rcases ih (d :: r) hlen a h1 with h2 | h2
                  · exact Or.inl h2
                  · exact Or.inr (by simp [h2])
            · rw [normPass_other c _ (by simpa using hcp)
                (by simpa using hcs)] at h
              rcases List.mem_cons.mp h with h1 | h1
              · exact Or.inr (by simp [h1])
              · rcases ih (d :: r) hlen a h1 with h2 | h2
                · exact Or.inl h2
                · exact Or.inr (by simp [h2])
  intro z a h
  exact main z.length z le_rfl a h

/-- With no opening bracket in sight the bracket pass does nothing. -/
theorem step4_id : ∀ l : List Char, '[' ∉ l → step4Aux none l = l := by
  intro l
  induction l with
  | nil => intro _; rfl
  | cons c cs ih =>
    intro h
    have hc : c ≠ '[' := fun hceq => h (by simp [hceq])
    rw [show step4Aux none (c :: cs) = c :: step4Aux none cs by
      simp [step4Aux, hc]]
    rw [ih (fun hm => h (by simp [hm]))]

/-- On bracket-free input the whole cleanup equals `normPass` of the
collapsed, stripped input. -/
theorem cleanupList_eq_normPass (l : List Char) (hl : '[' ∉ l) :
    cleanupList l = normPass (pyStrip (collapseWs l)) := by
  have htz : tame (pyStrip (collapseWs l)) = true :=
    pyStrip_tame _ (collapseAux_tame l false)
  have hbz : '[' ∉ pyStrip (collapseWs l) := by
    intro hm
    rcases collapseAux_mem l false '[' (pyStrip_mem hm) with h1 | h1
    · exact absurd h1 (by decide)
    · exact hl h1
  have hbn : '[' ∉ normPass (pyStrip (collapseWs l)) := by
    intro hm
    rcases normPass_mem _ '[' hm with h1 | h1
    · exact absurd h1 (by decide)
    · exact hbz h1
  show pyStrip (step4 (step3 (step2 (pyStrip (collapseWs l)))))
      = normPass (pyStrip (collapseWs l))
  rw [show step2 (pyStrip (collapseWs l))
      = step2Aux [] (pyStrip (collapseWs l)) from rfl]
  rw [step32_eq_normPass _ htz]
  rw [show step4 (normPass (pyStrip (collapseWs l)))
      = step4Aux none (normPass (pyStrip (collapseWs l))) from rfl]
  rw [step4_id _ hbn]
  have hnl : noLead (normPass (pyStrip (collapseWs l))) := by
    intro e he
    cases hz : pyStrip (collapseWs l) with
    | nil =>
      rw [hz] at he
      rw [show normPass ([] : List Char) = [] from rfl] at he
      simp at he
    | cons c t =>
      have hc : pySpace c = false := pyStrip_noLead (collapseWs l) c (by
        rw [hz]; rfl)
      rw [hz] at he
      rw [normPass_head c t hc] at he
      have : c = e := by simpa using he
      subst this
      exact hc
  have hnt : noTrail (normPass (pyStrip (collapseWs l))) :=
    normPass_noTrail _ htz (pyStrip_noTrail (collapseWs l))
  exact pyStrip_eq_self hnl hnt

/-- Bracket-free cleanup is idempotent at the character-list level. -/
theorem cleanupList_idem (l : List Char) (hl : '[' ∉ l) :
    cleanupList (cleanupList l) = cleanupList l := by
  rw [cleanupList_eq_normPass l hl]
  have htz : tame (pyStrip (collapseWs l)) = true :=
    pyStrip_tame _ (collapseAux_tame l false)
  have hty : tame (normPass (pyStrip (collapseWs l))) = true :=
    normPass_tame _ htz
  have hby : '[' ∉ normPass (pyStrip (collapseWs l)) := by
    intro hm
    rcases normPass_mem _ '[' hm with h1 | h1
    · exact absurd h1 (by decide)
    · rcases collapseAux_mem l false '[' (pyStrip_mem h1) with h2 | h2
      · exact absurd h2 (by decide)
      · exact hl h2
  rw [cleanupList_eq_normPass _ hby]
  have hnl : noLead (normPass (pyStrip (collapseWs l))) := by
    intro e he
    cases hz : pyStrip (collapseWs l) with
    | nil =>
      rw [hz] at he
      rw [show normPass ([] : List Char) = [] from rfl] at he
      simp at he
    | cons c t =>
      have hc : pySpace c = false := pyStrip_noLead (collapseWs l) c (by
        rw [hz]; rfl)
      rw [hz] at he
      rw [normPass_head c t hc] at he
      have : c = e := by simpa using he
      subst this
      exact hc
  have hnt : noTrail (normPass (pyStrip (collapseWs l))) :=
    normPass_noTrail _ htz (pyStrip_noTrail (collapseWs l))
  rw [collapseWs_fix _ hty, pyStrip_eq_self hnl hnt]
  exact normPass_idem _ htz

end Voice

/-! ## C8: idempotence of the deterministic cleanup -/

/-- Counterexample to C8: cleanup is not idempotent.  Removing the
bracketed tag in "a [b] c" merges its surrounding spaces into a double
space, which only a second cleanup collapses. -/
theorem cleanup_idempotence_counterexample :
    Voice.simpleCleanup "a [b] c" = "a  c" ∧
      Voice.simpleCleanup (Voice.simpleCleanup "a [b] c") = "a c" ∧
      Voice.simpleCleanup (Voice.simpleCleanup "a [b] c") ≠
        Voice.simpleCleanup "a [b] c" :=
  ⟨by decide, by decide, by decide⟩

/-- C8 as amended: the deterministic cleanup is idempotent on every input
string that contains no opening bracket (hence no bracketed artifact tag
for the bracket pass to remove):
`cleanup(cleanup(x)) = cleanup(x)` for all such `x`. -/
theorem cleanup_idempotent_no_tags (s : String) (h : '[' ∉ s.data) :
    Voice.simpleCleanup (Voice.simpleCleanup s) = Voice.simpleCleanup s := by
  have h2 := Voice.cleanupList_idem s.data h
  show String.mk (Voice.cleanupList (Voice.cleanupList s.data))
      = String.mk (Voice.cleanupList s.data)
  exact congrArg String.mk h2

/-- Witness for the amended C8 on a concrete bracket-free string. -/
theorem cleanup_idempotent_no_tags_witness :
    '[' ∉ " a ,b  . c".data ∧
      Voice.simpleCleanup (Voice.simpleCleanup " a ,b  . c") =
        Voice.simpleCleanup " a ,b  . c" :=
  ⟨by decide, cleanup_idempotent_no_tags " a ,b  . c" (by decide)⟩
